import Mathlib

/-!
# Verification of the ScotlandYard pursuit-evasion solver

Shallow embedding of the repository's core modules:

* `game/board.py`    — `Board` (undirected graph over integer node ids)
* `game/state.py`    — `GameState` (live mutable state)
* `solver/exhaustive_solver.py` — `SolverState`, `_valid_moves`,
  `_is_terminal`, `_next_states`, `solve_mrx_forced_escape`
* `strategies/policy_strategy.py` — `_policy_lookup_state`,
  `PolicyStrategy.choose_move`, `SerializedPolicyStrategy`
* `main.py`          — the pre-search start-state validation

Python's unbounded `int` is modelled by `Int`.  Python dicts keyed by
hashable values are modelled by association lists with first-match
lookup (a fresh binding is consed on the front, mirroring the fact
that each key is written at most once by the solver).  The solver's
`min(...)` built-in, which raises on an empty collection, is modelled
by `List.min?`, with the `none` branch propagated as `Option.none`
(the model's image of the `ValueError` path).
-/

set_option maxHeartbeats 1600000

namespace ScotlandYard

/-! ## `game/board.py` -/

/-- A board is constructed from an edge list (`Board.__init__`). -/
structure Board where
  edges : List (Int × Int)
deriving DecidableEq, Repr

/-- Insertion of an element into a sorted list of integers (used to
model Python's `sorted(...)` by a structurally recursive sort). -/
def insertSorted (x : Int) : List Int → List Int
  | [] => [x]
  | y :: ys => if x ≤ y then x :: y :: ys else y :: insertSorted x ys

/-- Structurally recursive model of Python's `sorted(...)` on integers. -/
def sortInts : List Int → List Int
  | [] => []
  | x :: xs => insertSorted x (sortInts xs)

namespace Board

/-- The adjacency mapping built by `Board.__init__`: for each edge
`(u, v)` the constructor inserts `v` into `_adjacency[u]` and `u` into
`_adjacency[v]`.  Each entry is a Python `set`; the model renders it as
a duplicate-free list (`dedup`), which makes duplicate edges idempotent
exactly as set insertion does. -/
def neighbors (b : Board) (n : Int) : List Int :=
  (b.edges.filterMap (fun e =>
    if e.1 = n then some e.2 else if e.2 = n then some e.1 else none)).dedup

/-- The key set of `_adjacency`: every endpoint of every edge is
inserted as a key by the construction loop. -/
def nodeKeys (b : Board) : Finset Int :=
  b.edges.foldl (fun acc e => insert e.2 (insert e.1 acc)) ∅

/-- `Board.nodes`: sorted list of all node IDs (the adjacency keys,
i.e. every edge endpoint). -/
def nodes (b : Board) : List Int :=
  sortInts ((b.edges.map Prod.fst ++ b.edges.map Prod.snd).dedup)

/-- `Board.has_node`: key membership in `_adjacency`. -/
def has_node (b : Board) (n : Int) : Bool :=
  n ∈ b.nodeKeys

end Board

/-! ## Actors

The source identifies actors by the strings `"mrx"` and
`"detective_<i>"`; the embedding uses a tagged variant and a
round-tripping string rendering (`playerStr`) where the textual form
matters (serialized policy keys). -/

inductive Player where
  | mrx : Player
  | detective (idx : Nat) : Player
deriving DecidableEq, Repr

/-- The string form of an actor id, as used throughout the source. -/
def playerStr : Player → String
  | Player.mrx => "mrx"
  | Player.detective i => "detective_" ++ toString i

/-! ## `solver/exhaustive_solver.py` — data model -/

/-- `SolverState`: hashable state used by the exhaustive solver. -/
structure SolverState where
  round_number : Int
  current_player : Player
  mrx_position : Int
  detective_positions : List Int
deriving DecidableEq, Repr

/-! ## `game/state.py` -/

/-- `GameState`: full live state of a game (defaults as in the source). -/
structure GameState where
  mrx_position : Int
  detective_positions : List Int
  round_number : Int := 0
  current_player : Player := Player.mrx
  mrx_history : List Int := []
  reveal_rounds : List Int := [3, 8, 13]
  game_over : Bool := false
  mrx_caught : Bool := false
  max_rounds : Int := 15
deriving DecidableEq, Repr

/-- `SolverState.from_game_state`. -/
def SolverState.from_game_state (state : GameState) : SolverState :=
  { round_number := state.round_number
    current_player := state.current_player
    mrx_position := state.mrx_position
    detective_positions := state.detective_positions }

/-! ## `solver/exhaustive_solver.py` — transition model -/

/-- `_valid_moves`: `sorted(n for n in board.neighbors(node) if n not in excluded)`. -/
def valid_moves (board : Board) (node : Int) (excluded_nodes : List Int) : List Int :=
  sortInts ((board.neighbors node).filter (fun n => n ∉ excluded_nodes))

/-- `_is_terminal`: returns `(is_terminal, mrx_wins)`, checking, in
order: capture, survival past `max_rounds`, and Mr. X trapped. -/
def is_terminal (board : Board) (state : SolverState) (max_rounds : Int) : Bool × Bool :=
  if state.mrx_position ∈ state.detective_positions then (true, false)
  else if state.round_number ≥ max_rounds ∧ state.current_player = Player.mrx then (true, true)
  else if state.current_player = Player.mrx ∧
      valid_moves board state.mrx_position state.detective_positions = [] then (true, false)
  else (false, false)

/-- `_next_states`: enumerate legal transitions as `(move, next_state)`.

For Mr. X, each legal move advances the round and hands the turn to
`detective_0` (or back to Mr. X when there are no detectives).  For
`detective_k`, legal moves exclude only the *other* detectives'
positions; a stuck detective stays in place.  The detective branch of
the source indexes `det_positions[idx]`, which presupposes
`idx < len(det_positions)` (an out-of-range actor id would raise; such
states are never constructed, and the model returns `[]` there). -/
def next_states (board : Board) (state : SolverState) : List (Int × SolverState) :=
  match state.current_player with
  | Player.mrx =>
    let legal := valid_moves board state.mrx_position state.detective_positions
    let next_player :=
      if state.detective_positions.length > 0 then Player.detective 0 else Player.mrx
    legal.map (fun move =>
      (move,
        { round_number := state.round_number + 1
          current_player := next_player
          mrx_position := move
          detective_positions := state.detective_positions }))
  | Player.detective idx =>
    if idx < state.detective_positions.length then
      let from_node := state.detective_positions.getD idx 0
      let occupied_by_other_detectives := state.detective_positions.eraseIdx idx
      let legal0 := valid_moves board from_node occupied_by_other_detectives
      let legal := if legal0 = [] then [from_node] else legal0
      let next_player :=
        if idx + 1 < state.detective_positions.length then Player.detective (idx + 1)
        else Player.mrx
      legal.map (fun move =>
        (move,
          { round_number := state.round_number
            current_player := next_player
            mrx_position := state.mrx_position
            detective_positions := state.detective_positions.set idx move }))
    else []

/-! ## Termination measure for the solver recursion

`round_number` is non-decreasing along transitions and increases
exactly when Mr. X moves; within each round the detective index
advances.  The measure below therefore strictly decreases along every
transition out of a non-terminal state. -/

/-- Number of actors that still move before the round counter next
advances (Mr. X's own move is the advance, so he counts 0). -/
def phase : Player → Nat → Nat
  | Player.mrx, _ => 0
  | Player.detective k, len => len - k

/-- Termination measure: remaining rounds weighted by the actor cycle
length, plus the number of actors still to move in the current cycle. -/
def meas (max_rounds : Int) (s : SolverState) : Nat :=
  (max_rounds - s.round_number).toNat * (s.detective_positions.length + 1) +
    phase s.current_player s.detective_positions.length

/-- Unpacking `_is_terminal = (false, _)`: no capture, and on Mr. X's
turn the round budget is not exhausted and a legal move exists. -/
theorem not_terminal_facts (board : Board) (s : SolverState) (max_rounds : Int)
    (hterm : (is_terminal board s max_rounds).1 = false) :
    s.mrx_position ∉ s.detective_positions ∧
    (s.current_player = Player.mrx →
      s.round_number < max_rounds ∧
      valid_moves board s.mrx_position s.detective_positions ≠ []) := by
  unfold is_terminal at hterm
  split_ifs at hterm with h1 h2 h3
  refine ⟨h1, fun hp => ⟨?_, fun hnil => h3 ⟨hp, hnil⟩⟩⟩
  by_contra hge
  exact h2 ⟨le_of_not_lt hge, hp⟩

/-- Every transition out of a non-terminal state strictly decreases the
measure. -/
theorem meas_decreasing (board : Board) (max_rounds : Int) (s : SolverState)
    (hterm : (is_terminal board s max_rounds).1 = false) :
    ∀ p ∈ next_states board s, meas max_rounds p.2 < meas max_rounds s := by
  intro p hp
  match hcp : s.current_player with
  | Player.mrx =>
    have hround : s.round_number < max_rounds :=
      ((not_terminal_facts board s max_rounds hterm).2 hcp).1
    simp only [next_states, hcp, List.mem_map] at hp
    obtain ⟨move, -, rfl⟩ := hp
    have htn : (max_rounds - s.round_number).toNat
        = (max_rounds - (s.round_number + 1)).toNat + 1 := by omega
    have hphase : phase (if s.detective_positions.length > 0
        then Player.detective 0 else Player.mrx) s.detective_positions.length
        < s.detective_positions.length + 1 := by
      by_cases hlen : s.detective_positions.length > 0 <;> simp [hlen, phase]
    have h0 : phase Player.mrx s.detective_positions.length = 0 := rfl
    simp only [meas, hcp, h0]
    rw [htn, Nat.succ_mul]
    omega
  | Player.detective k =>
    simp only [next_states, hcp] at hp
    by_cases hk : k < s.detective_positions.length
    · simp only [if_pos hk, List.mem_map] at hp
      obtain ⟨move, -, rfl⟩ := hp
      simp only [meas, hcp, List.length_set]
      apply Nat.add_lt_add_left
      by_cases hk1 : k + 1 < s.detective_positions.length <;>
        simp [hk1, phase] <;> omega
    · simp [if_neg hk] at hp

/-! ## The solver's verdict as a pure total function

`canWin` is the memo-free denotation of `can_mrx_force_win`: the
backward-induction value of a state.  It is defined by well-founded
recursion on `meas`. -/

/-- Backward-induction verdict: can Mr. X force a win from `s`? -/
def canWin (board : Board) (max_rounds : Int) (s : SolverState) : Bool :=
  if hterm : (is_terminal board s max_rounds).1 then
    (is_terminal board s max_rounds).2
  else if s.current_player = Player.mrx then
    (next_states board s).attach.any (fun c => canWin board max_rounds c.1.2)
  else
    (next_states board s).attach.all (fun c => canWin board max_rounds c.1.2)
termination_by meas max_rounds s
decreasing_by
  all_goals
    exact meas_decreasing board max_rounds s (by simpa using hterm) c.1 c.2

/-! ## `solve_mrx_forced_escape` — the memoized search itself

The Python inner function `can_mrx_force_win` mutates a memo dict and
a policy dict; the model threads them as association lists (newest
binding first).  The list comprehension
`[(move, can_mrx_force_win(nxt)) for move, nxt in children]` is
modelled by the mutually recursive `evalChildren` loop, which threads
the memo/policy state left to right exactly as Python evaluates the
comprehension.  `min` over an empty collection raises `ValueError` in
Python; the model returns `none` on that path. -/

abbrev Memo := List (SolverState × Bool)
abbrev PolicyMap := List (SolverState × Int)

/-- First-match association-list lookup (`dict.get`). -/
def alookup {α β : Type} [DecidableEq α] : List (α × β) → α → Option β
  | [], _ => none
  | (k, v) :: rest, key => if k = key then some v else alookup rest key

mutual

/-- The recursive search of `solve_mrx_forced_escape`
(`can_mrx_force_win` in the source), with the memo table and policy
dict threaded explicitly. -/
def can_mrx_force_win (board : Board) (max_rounds : Int) (s : SolverState)
    (memo : Memo) (policy : PolicyMap) : Option (Bool × Memo × PolicyMap) :=
  match alookup memo s with
  | some v => some (v, memo, policy)
  | none =>
    if hterm : (is_terminal board s max_rounds).1 then
      some ((is_terminal board s max_rounds).2,
        (s, (is_terminal board s max_rounds).2) :: memo, policy)
    else
      match s.current_player with
      | Player.mrx =>
        match evalChildren board max_rounds (meas max_rounds s) (next_states board s)
            (meas_decreasing board max_rounds s (by simpa using hterm)) memo policy with
        | none => none
        | some (child_results, memo1, policy1) =>
          let winning_moves := (child_results.filter (fun r => r.2)).map (fun r => r.1)
          match winning_moves.min? with
          | some chosen =>
            some (true, (s, true) :: memo1, (s, chosen) :: policy1)
          | none =>
            match (child_results.map (fun r => r.1)).min? with
            | some chosen => some (false, (s, false) :: memo1, (s, chosen) :: policy1)
            | none => none
      | Player.detective _ =>
        match evalChildren board max_rounds (meas max_rounds s) (next_states board s)
            (meas_decreasing board max_rounds s (by simpa using hterm)) memo policy with
        | none => none
        | some (child_results, memo1, policy1) =>
          let all_children_good := child_results.all (fun r => r.2)
          some (all_children_good, (s, all_children_good) :: memo1, policy1)
termination_by (meas max_rounds s, (next_states board s).length + 1)
decreasing_by
  all_goals
    apply Prod.Lex.right
    omega

/-- Left-to-right evaluation of all child states, threading memo and
policy (the model of the child-evaluation loops in both branches of
`can_mrx_force_win`). -/
def evalChildren (board : Board) (max_rounds : Int) (bound : Nat)
    (children : List (Int × SolverState))
    (hlt : ∀ p ∈ children, meas max_rounds p.2 < bound)
    (memo : Memo) (policy : PolicyMap) :
    Option (List (Int × Bool) × Memo × PolicyMap) :=
  match children with
  | [] => some ([], memo, policy)
  | c :: rest =>
    match can_mrx_force_win board max_rounds c.2 memo policy with
    | none => none
    | some (v, memo1, policy1) =>
      match evalChildren board max_rounds bound rest
          (fun p hp => hlt p (List.mem_cons_of_mem c hp)) memo1 policy1 with
      | none => none
      | some (vs, memo2, policy2) => some ((c.1, v) :: vs, memo2, policy2)
termination_by (bound, children.length)
decreasing_by
  · apply Prod.Lex.left
    exact hlt c (List.mem_cons_self c rest)
  · apply Prod.Lex.right
    simp

end

/-- `ExhaustiveResult`: output of the exhaustive solver. -/
structure ExhaustiveResult where
  forced_escape : Bool
  policy : PolicyMap
  states_evaluated : Nat
deriving DecidableEq, Repr

/-- `solve_mrx_forced_escape`: run the search from the start state with
an empty memo and policy; `states_evaluated` is the final memo size. -/
def solve_mrx_forced_escape (board : Board) (initial_state : GameState) :
    Option ExhaustiveResult :=
  let start := SolverState.from_game_state initial_state
  let max_rounds := initial_state.max_rounds
  match can_mrx_force_win board max_rounds start [] [] with
  | none => none
  | some (forced_escape, _memo, policy) =>
    some ⟨forced_escape, policy, _memo.length⟩

/-! ## Basic lemmas about the embedding -/

theorem any_attach_eq {α : Type} (l : List α) (f : α → Bool) :
    (l.attach.any fun c => f c.1) = l.any f := by
  rw [Bool.eq_iff_iff]
  simp [List.any_eq_true, Subtype.exists]

theorem all_attach_eq {α : Type} (l : List α) (f : α → Bool) :
    (l.attach.all fun c => f c.1) = l.all f := by
  rw [Bool.eq_iff_iff]
  simp [List.all_eq_true, Subtype.forall]

theorem alookup_mem {α β : Type} [DecidableEq α] (l : List (α × β)) (k : α) (v : β)
    (h : alookup l k = some v) : (k, v) ∈ l := by
  induction l with
  | nil => simp [alookup] at h
  | cons p rest ih =>
    obtain ⟨a, b⟩ := p
    by_cases hk : a = k
    · subst hk
      simp [alookup] at h
      simp [h]
    · simp only [alookup, if_neg hk] at h
      exact List.mem_cons_of_mem _ (ih h)

/-- On Mr. X's turn of a non-terminal state the successor list is
non-empty (he has a legal move, by the Trapped check). -/
theorem next_states_mrx_ne_nil (board : Board) (max_rounds : Int) (s : SolverState)
    (hterm : (is_terminal board s max_rounds).1 = false)
    (hcp : s.current_player = Player.mrx) :
    next_states board s ≠ [] := by
  have h := ((not_terminal_facts board s max_rounds hterm).2 hcp).2
  simp only [next_states, hcp]
  intro hnil
  exact h (by simpa using hnil)

/-- Unfolding `canWin` at a terminal state. -/
theorem canWin_terminal (board : Board) (max_rounds : Int) (s : SolverState)
    (hterm : (is_terminal board s max_rounds).1 = true) :
    canWin board max_rounds s = (is_terminal board s max_rounds).2 := by
  rw [canWin]
  simp [hterm]

/-- Unfolding `canWin` at a non-terminal Mr. X state: he wins iff some
successor wins. -/
theorem canWin_mrx_eq (board : Board) (max_rounds : Int) (s : SolverState)
    (hterm : (is_terminal board s max_rounds).1 = false)
    (hcp : s.current_player = Player.mrx) :
    canWin board max_rounds s =
      (next_states board s).any (fun p => canWin board max_rounds p.2) := by
  conv_lhs => rw [canWin]
  rw [dif_neg (by simp [hterm]), if_pos hcp]
  exact any_attach_eq (next_states board s) (fun p => canWin board max_rounds p.2)

/-- Unfolding `canWin` at a non-terminal detective state: Mr. X wins
iff every successor wins. -/
theorem canWin_detective_eq (board : Board) (max_rounds : Int) (s : SolverState) (k : Nat)
    (hterm : (is_terminal board s max_rounds).1 = false)
    (hcp : s.current_player = Player.detective k) :
    canWin board max_rounds s =
      (next_states board s).all (fun p => canWin board max_rounds p.2) := by
  conv_lhs => rw [canWin]
  rw [dif_neg (by simp [hterm]), if_neg (by simp [hcp])]
  exact all_attach_eq (next_states board s) (fun p => canWin board max_rounds p.2)

/-- `List.min?` on integers picks exactly the least element. -/
theorem int_min?_eq_some_iff {xs : List Int} {a : Int} :
    xs.min? = some a ↔ a ∈ xs ∧ ∀ b ∈ xs, a ≤ b := by
  haveI : Std.Antisymm ((· : Int) ≤ ·) := ⟨fun h₁ h₂ => Int.le_antisymm h₁ h₂⟩
  exact List.min?_eq_some_iff Int.le_refl (fun x y => min_choice x y)
    (fun x y z => le_min_iff)

/-- `List.all` over a `map`, for maps that change the element type. -/
theorem all_map_general {α β : Type} (l : List α) (f : α → β) (p : β → Bool) :
    (l.map f).all p = l.all (fun a => p (f a)) := by
  induction l with
  | nil => rfl
  | cons a t ih => simp [List.all_cons, ih]

/-! ## Correctness of the memoized search

The memo table is *sound* when every cached verdict agrees with the
pure backward-induction value `canWin`.  The main specification shows
that, starting from a sound memo, `can_mrx_force_win` always returns
`some`, returns exactly `canWin`, preserves memo soundness, and only
ever adds policy entries keyed by Mr.-X-to-move states. -/

/-- Every cached verdict agrees with `canWin`. -/
def MemoOK (board : Board) (max_rounds : Int) (memo : Memo) : Prop :=
  ∀ q ∈ memo, q.2 = canWin board max_rounds q.1

/-- Specification of a single `can_mrx_force_win` call (the conclusion
of the main induction), packaged as a `Prop`. -/
def CallOK (board : Board) (max_rounds : Int) (s : SolverState)
    (memo : Memo) (policy : PolicyMap) : Prop :=
  ∃ memo2 policy2,
    can_mrx_force_win board max_rounds s memo policy =
      some (canWin board max_rounds s, memo2, policy2) ∧
    MemoOK board max_rounds memo2 ∧
    (∀ q ∈ policy2, q ∈ policy ∨ q.1.current_player = Player.mrx)

/-- `evalChildren` evaluates every child to its `canWin` value,
provided each individual call meets its specification. -/
theorem evalChildren_spec (board : Board) (max_rounds : Int) (bound : Nat) :
    ∀ (children : List (Int × SolverState))
      (hlt : ∀ p ∈ children, meas max_rounds p.2 < bound),
      (∀ p ∈ children, ∀ memo' policy', MemoOK board max_rounds memo' →
        CallOK board max_rounds p.2 memo' policy') →
      ∀ memo policy, MemoOK board max_rounds memo →
      ∃ memo2 policy2,
        evalChildren board max_rounds bound children hlt memo policy =
          some (children.map (fun p => (p.1, canWin board max_rounds p.2)),
            memo2, policy2) ∧
        MemoOK board max_rounds memo2 ∧
        (∀ q ∈ policy2, q ∈ policy ∨ q.1.current_player = Player.mrx) := by
  intro children
  induction children with
  | nil =>
    intro hlt _ memo policy hm
    exact ⟨memo, policy, by rw [evalChildren]; rfl, hm, fun q hq => Or.inl hq⟩
  | cons c rest ih =>
    intro hlt hchild memo policy hm
    obtain ⟨memo1, policy1, heq1, hm1, hpol1⟩ :=
      hchild c (List.mem_cons_self c rest) memo policy hm
    obtain ⟨memo2, policy2, heq2, hm2, hpol2⟩ :=
      ih (fun p hp => hlt p (List.mem_cons_of_mem c hp))
        (fun p hp => hchild p (List.mem_cons_of_mem c hp)) memo1 policy1 hm1
    refine ⟨memo2, policy2, ?_, hm2, ?_⟩
    · rw [evalChildren]
      simp only [heq1, heq2, List.map_cons]
    · intro q hq
      rcases hpol2 q hq with h | h
      · rcases hpol1 q h with h' | h'
        · exact Or.inl h'
        · exact Or.inr h'
      · exact Or.inr h

/-- The Mr.-X branch of `can_mrx_force_win` at a non-memoized,
non-terminal state: the verdict is `canWin`, a policy entry for `s` is
pushed whose move is the least winning move when one exists and the
least move overall otherwise. -/
theorem can_mrx_force_win_mrx (board : Board) (max_rounds : Int) (s : SolverState)
    (memo : Memo) (policy : PolicyMap)
    (hm : MemoOK board max_rounds memo)
    (hlk : alookup memo s = none)
    (hterm : (is_terminal board s max_rounds).1 = false)
    (hcp : s.current_player = Player.mrx)
    (hchild : ∀ p ∈ next_states board s, ∀ memo' policy', MemoOK board max_rounds memo' →
      CallOK board max_rounds p.2 memo' policy') :
    ∃ memo2 policy2 chosen,
      can_mrx_force_win board max_rounds s memo policy =
        some (canWin board max_rounds s,
          (s, canWin board max_rounds s) :: memo2, (s, chosen) :: policy2) ∧
      MemoOK board max_rounds memo2 ∧
      (∀ q ∈ policy2, q ∈ policy ∨ q.1.current_player = Player.mrx) ∧
      (if ((next_states board s).filter
            (fun p => canWin board max_rounds p.2)).map Prod.fst = [] then
        canWin board max_rounds s = false ∧
          ((next_states board s).map Prod.fst).min? = some chosen
      else
        canWin board max_rounds s = true ∧
          (((next_states board s).filter
            (fun p => canWin board max_rounds p.2)).map Prod.fst).min? = some chosen) := by
  obtain ⟨memo1, policy1, heq1, hm1, hpol1⟩ :=
    evalChildren_spec board max_rounds (meas max_rounds s) (next_states board s)
      (meas_decreasing board max_rounds s hterm) hchild memo policy hm
  have hne : next_states board s ≠ [] := next_states_mrx_ne_nil board max_rounds s hterm hcp
  have hwin_eq :
      ((List.map (fun p => (p.1, canWin board max_rounds p.2)) (next_states board s)).filter
          (fun r => r.2)).map (fun r => r.1) =
        ((next_states board s).filter (fun p => canWin board max_rounds p.2)).map Prod.fst := by
    rw [List.filter_map, List.map_map]
    rfl
  have hall_eq :
      (List.map (fun p => (p.1, canWin board max_rounds p.2)) (next_states board s)).map
          (fun r => r.1) =
        (next_states board s).map Prod.fst := by
    rw [List.map_map]
    rfl
  have hany := canWin_mrx_eq board max_rounds s hterm hcp
  cases hmin : (((next_states board s).filter
      (fun p => canWin board max_rounds p.2)).map Prod.fst).min? with
  | some chosen =>
    have hwnil : ((next_states board s).filter
        (fun p => canWin board max_rounds p.2)).map Prod.fst ≠ [] := by
      intro hnil
      rw [hnil] at hmin
      simp at hmin
    have hcw : canWin board max_rounds s = true := by
      rw [hany]
      rcases List.exists_mem_of_ne_nil _ hwnil with ⟨m, hmem⟩
      rcases List.mem_map.mp hmem with ⟨p, hpf, -⟩
      rcases List.mem_filter.mp hpf with ⟨hpmem, hpwin⟩
      exact List.any_eq_true.mpr ⟨p, hpmem, hpwin⟩
    refine ⟨memo1, policy1, chosen, ?_, hm1, hpol1, ?_⟩
    · rw [can_mrx_force_win]
      simp only [hlk, hterm, Bool.false_eq_true, dite_false, hcp, heq1, hwin_eq, hmin, hcw]
    · rw [if_neg hwnil]
      exact ⟨hcw, rfl⟩
  | none =>
    have hwnil : ((next_states board s).filter
        (fun p => canWin board max_rounds p.2)).map Prod.fst = [] := by
      simpa using hmin
    have hcw : canWin board max_rounds s = false := by
      rw [hany]
      simp only [List.map_eq_nil_iff, List.filter_eq_nil_iff] at hwnil
      simp only [List.any_eq_false]
      intro p hp
      simpa using hwnil p hp
    have hmnil : (next_states board s).map Prod.fst ≠ [] := by
      simpa using hne
    cases hmin2 : ((next_states board s).map Prod.fst).min? with
    | none =>
      rw [List.min?_eq_none_iff] at hmin2
      exact absurd hmin2 hmnil
    | some chosen =>
      refine ⟨memo1, policy1, chosen, ?_, hm1, hpol1, ?_⟩
      · rw [can_mrx_force_win]
        simp only [hlk, hterm, Bool.false_eq_true, dite_false, hcp, heq1, hwin_eq, hwnil,
          List.min?_nil, hall_eq, hmin2, hcw]
      · rw [if_pos hwnil]
        exact ⟨hcw, rfl⟩

/-- Main specification of the memoized search: starting from a sound
memo it returns `some`, its verdict is `canWin`, the memo stays sound,
and every new policy entry is keyed by an Mr.-X-to-move state. -/
theorem can_mrx_force_win_spec (board : Board) (max_rounds : Int) :
    ∀ (n : Nat) (s : SolverState), meas max_rounds s ≤ n →
      ∀ (memo : Memo) (policy : PolicyMap), MemoOK board max_rounds memo →
      CallOK board max_rounds s memo policy := by
  intro n
  induction n using Nat.strong_induction_on with
  | _ n IHn =>
    intro s hn memo policy hm
    cases hlk : alookup memo s with
    | some v =>
      have hv : v = canWin board max_rounds s := hm (s, v) (alookup_mem _ _ _ hlk)
      refine ⟨memo, policy, ?_, hm, fun q hq => Or.inl hq⟩
      rw [can_mrx_force_win]
      simp only [hlk, hv]
    | none =>
      by_cases hterm : (is_terminal board s max_rounds).1 = true
      · refine ⟨(s, (is_terminal board s max_rounds).2) :: memo, policy, ?_, ?_,
          fun q hq => Or.inl hq⟩
        · rw [can_mrx_force_win]
          simp only [hlk, hterm, dite_true, canWin_terminal board max_rounds s hterm]
        · intro q hq
          rcases List.mem_cons.mp hq with rfl | h
          · exact (canWin_terminal board max_rounds s hterm).symm
          · exact hm q h
      · have hterm' : (is_terminal board s max_rounds).1 = false := by
          simpa using hterm
        have hchild : ∀ p ∈ next_states board s, ∀ memo' policy',
            MemoOK board max_rounds memo' → CallOK board max_rounds p.2 memo' policy' := by
          intro p hp memo' policy' hm'
          have hlt := meas_decreasing board max_rounds s hterm' p hp
          exact IHn (meas max_rounds p.2) (by omega) p.2 le_rfl memo' policy' hm'
        cases hcp : s.current_player with
        | mrx =>
          obtain ⟨memo2, policy2, chosen, heq, hm2, hpol2, -⟩ :=
            can_mrx_force_win_mrx board max_rounds s memo policy hm hlk hterm' hcp hchild
          refine ⟨(s, canWin board max_rounds s) :: memo2, (s, chosen) :: policy2, heq, ?_, ?_⟩
          · intro q hq
            rcases List.mem_cons.mp hq with rfl | h
            · rfl
            · exact hm2 q h
          · intro q hq
            rcases List.mem_cons.mp hq with rfl | h
            · exact Or.inr hcp
            · exact hpol2 q h
        | detective k =>
          obtain ⟨memo1, policy1, heq1, hm1, hpol1⟩ :=
            evalChildren_spec board max_rounds (meas max_rounds s) (next_states board s)
              (meas_decreasing board max_rounds s hterm') hchild memo policy hm
          have hall : (List.map (fun p => (p.1, canWin board max_rounds p.2))
              (next_states board s)).all (fun r => r.2) = canWin board max_rounds s := by
            rw [all_map_general, canWin_detective_eq board max_rounds s k hterm' hcp]
          refine ⟨(s, canWin board max_rounds s) :: memo1, policy1, ?_, ?_, hpol1⟩
          · rw [can_mrx_force_win]
            simp only [hlk, hterm', Bool.false_eq_true, dite_false, hcp, heq1, hall]
          · intro q hq
            rcases List.mem_cons.mp hq with rfl | h
            · rfl
            · exact hm1 q h

/-! ## Monotonicity of the verdict in the round budget

Shrinking `max_rounds` makes Mr. X's task easier: a forced escape for a
budget `M` is in particular a forced escape for any budget `M' ≤ M`.
(The converse direction fails; see the counterexample for C4.) -/

/-- A state non-terminal under a smaller budget is non-terminal under
any larger budget. -/
theorem not_terminal_mono (board : Board) (s : SolverState) {M M' : Int} (hMM : M' ≤ M)
    (ht' : (is_terminal board s M').1 = false) :
    (is_terminal board s M).1 = false := by
  obtain ⟨hcap, hmrx⟩ := not_terminal_facts board s M' ht'
  unfold is_terminal
  rw [if_neg hcap]
  by_cases hc2 : s.round_number ≥ M ∧ s.current_player = Player.mrx
  · exact absurd (hmrx hc2.2).1 (not_lt.mpr (le_trans hMM hc2.1))
  · rw [if_neg hc2]
    by_cases hc3 : s.current_player = Player.mrx ∧
        valid_moves board s.mrx_position s.detective_positions = []
    · exact absurd hc3.2 (hmrx hc3.1).2
    · rw [if_neg hc3]

/-- If a state is terminal under the smaller budget while Mr. X wins
the larger-budget game from it, the small-budget terminal is a
Survived win. -/
theorem terminal_small_wins (board : Board) (s : SolverState) {M M' : Int} (hMM : M' ≤ M)
    (ht' : (is_terminal board s M').1 = true)
    (hw : canWin board M s = true) :
    (is_terminal board s M').2 = true := by
  by_cases hcap : s.mrx_position ∈ s.detective_positions
  · have h1 : is_terminal board s M = (true, false) := by
      unfold is_terminal
      rw [if_pos hcap]
    have := canWin_terminal board M s (by rw [h1])
    rw [h1] at this
    rw [hw] at this
    exact absurd this.symm (by simp)
  · by_cases hc2 : s.round_number ≥ M' ∧ s.current_player = Player.mrx
    · unfold is_terminal
      rw [if_neg hcap, if_pos hc2]
    · have hc3 : s.current_player = Player.mrx ∧
          valid_moves board s.mrx_position s.detective_positions = [] := by
        by_contra hc3
        unfold is_terminal at ht'
        rw [if_neg hcap, if_neg hc2, if_neg hc3] at ht'
        exact absurd ht' (by simp)
      have hc2M : ¬(s.round_number ≥ M ∧ s.current_player = Player.mrx) := by
        intro h
        exact hc2 ⟨le_trans hMM h.1, h.2⟩
      have h1 : is_terminal board s M = (true, false) := by
        unfold is_terminal
        rw [if_neg hcap, if_neg hc2M, if_pos hc3]
      have := canWin_terminal board M s (by rw [h1])
      rw [h1] at this
      rw [hw] at this
      exact absurd this.symm (by simp)

/-- Verdict monotonicity: a forced escape with budget `M` is a forced
escape with any budget `M' ≤ M`. -/
theorem canWin_mono_aux (board : Board) :
    ∀ (n : Nat) (M M' : Int), M' ≤ M → ∀ s, meas M s ≤ n →
      canWin board M s = true → canWin board M' s = true := by
  intro n
  induction n using Nat.strong_induction_on with
  | _ n IHn =>
    intro M M' hMM s hn hw
    by_cases hterm' : (is_terminal board s M').1 = true
    · rw [canWin_terminal board M' s hterm']
      exact terminal_small_wins board s hMM hterm' hw
    · have hterm2 : (is_terminal board s M').1 = false := by simpa using hterm'
      have htermM : (is_terminal board s M).1 = false := not_terminal_mono board s hMM hterm2
      cases hcp : s.current_player with
      | mrx =>
        rw [canWin_mrx_eq board M s htermM hcp] at hw
        rw [canWin_mrx_eq board M' s hterm2 hcp]
        rw [List.any_eq_true] at hw ⊢
        obtain ⟨p, hp, hpw⟩ := hw
        refine ⟨p, hp, ?_⟩
        have hlt := meas_decreasing board M s htermM p hp
        exact IHn (meas M p.2) (by omega) M M' hMM p.2 le_rfl hpw
      | detective k =>
        rw [canWin_detective_eq board M s k htermM hcp] at hw
        rw [canWin_detective_eq board M' s k hterm2 hcp]
        rw [List.all_eq_true] at hw ⊢
        intro p hp
        have hlt := meas_decreasing board M s htermM p hp
        exact IHn (meas M p.2) (by omega) M M' hMM p.2 le_rfl (hw p hp)

/-- Verdict monotonicity, unbundled. -/
theorem canWin_mono (board : Board) {M M' : Int} (hMM : M' ≤ M) (s : SolverState)
    (hw : canWin board M s = true) : canWin board M' s = true :=
  canWin_mono_aux board (meas M s) M M' hMM s le_rfl hw

/-! ## `strategies/policy_strategy.py` -/

/-- `_policy_lookup_state`: build the `SolverState` key the solver
would have used.  For Mr. X turns the engine has already bumped
`round_number` by 1, so it is subtracted back; detective turns are
unaffected. -/
def policy_lookup_state (state : GameState) : SolverState :=
  let rn := if state.current_player = Player.mrx
    then state.round_number - 1 else state.round_number
  { round_number := rn
    current_player := state.current_player
    mrx_position := state.mrx_position
    detective_positions := state.detective_positions }

/-- Result of a `choose_move` call: either a move, or one of the two
exceptional exits (the strict-mode `KeyError` carrying the key and the
valid-move list, or the `ValueError` that `min` raises on an empty
valid-move list). -/
inductive ChooseOutcome (κ : Type) where
  | move (n : Int)
  | lookupMiss (key : κ) (validMoves : List Int)
  | noValidMoves
deriving DecidableEq, Repr

/-- Shared tail of both `choose_move` implementations: `if strict:
raise KeyError(key, valid_moves)` / `return min(valid_moves)`. -/
def chooseFallback {κ : Type} (strict : Bool) (key : κ) (valid_moves : List Int) :
    ChooseOutcome κ :=
  if strict then ChooseOutcome.lookupMiss key valid_moves
  else match valid_moves.min? with
    | some m => ChooseOutcome.move m
    | none => ChooseOutcome.noValidMoves

/-- `PolicyStrategy.choose_move`: look up the reconciled key; return
the stored move when it is currently legal, otherwise fall back. -/
def PolicyStrategy.choose_move (policy : PolicyMap) (strict : Bool)
    (state : GameState) (valid_moves : List Int) : ChooseOutcome SolverState :=
  let key := policy_lookup_state state
  match alookup policy key with
  | some move =>
    if move ∈ valid_moves then ChooseOutcome.move move
    else chooseFallback strict key valid_moves
  | none => chooseFallback strict key valid_moves

/-- `SerializedPolicyStrategy._state_to_key`:
`r=<round>|p=<player>|x=<mrx>|d=<d1,d2,...>` for the reconciled state. -/
def SerializedPolicyStrategy.state_to_key (state : GameState) : String :=
  let s := policy_lookup_state state
  "r=" ++ toString s.round_number ++ "|p=" ++ playerStr s.current_player ++
    "|x=" ++ toString s.mrx_position ++ "|d=" ++
    String.intercalate "," (s.detective_positions.map toString)

/-- `SerializedPolicyStrategy.choose_move`: identical logic on the
string-keyed mapping. -/
def SerializedPolicyStrategy.choose_move (serialized_policy : List (String × Int))
    (strict : Bool) (state : GameState) (valid_moves : List Int) : ChooseOutcome String :=
  let key := SerializedPolicyStrategy.state_to_key state
  match alookup serialized_policy key with
  | some move =>
    if move ∈ valid_moves then ChooseOutcome.move move
    else chooseFallback strict key valid_moves
  | none => chooseFallback strict key valid_moves

/-- Key-renaming on outcomes (used to state that the two strategy
variants behave identically up to the key representation). -/
def ChooseOutcome.mapKey {κ κ' : Type} (f : κ → κ') : ChooseOutcome κ → ChooseOutcome κ'
  | ChooseOutcome.move n => ChooseOutcome.move n
  | ChooseOutcome.lookupMiss key valid => ChooseOutcome.lookupMiss (f key) valid
  | ChooseOutcome.noValidMoves => ChooseOutcome.noValidMoves

/-! ## `main.py` — start-state validation -/

/-- The `sys.exit(1)` conditions of `main`'s validation block. -/
inductive StartError where
  | offBoard (p : Int)
  | duplicate
deriving DecidableEq, Repr

/-- `main`'s pre-search validation (the "board & validation" block of
`main.py`): every start position must be on the board, and all
positions must be pairwise distinct.  `max_rounds` is taken as an
argument to record that the source performs no check on it: it is
forwarded into `GameState` unexamined. -/
def mainValidate (board : Board) (mrx_start : Int) (detective_starts : List Int)
    (max_rounds : Int) : Except StartError Unit :=
  let all_pos := mrx_start :: detective_starts
  match all_pos.find? (fun p => !board.has_node p) with
  | some p => Except.error (StartError.offBoard p)
  | none =>
    if all_pos.dedup.length ≠ all_pos.length then Except.error StartError.duplicate
    else Except.ok ()

/-! ## Membership characterizations -/

theorem mem_insertSorted (x y : Int) (l : List Int) :
    y ∈ insertSorted x l ↔ y = x ∨ y ∈ l := by
  induction l with
  | nil => simp [insertSorted]
  | cons a t ih =>
    simp only [insertSorted]
    split
    · simp [List.mem_cons]
    · simp only [List.mem_cons, ih]
      tauto

theorem mem_sortInts (l : List Int) (y : Int) : y ∈ sortInts l ↔ y ∈ l := by
  induction l with
  | nil => simp [sortInts]
  | cons a t ih => simp [sortInts, mem_insertSorted, ih]

/-- `_valid_moves` returns exactly the neighbors not excluded. -/
theorem mem_valid_moves (board : Board) (node : Int) (excl : List Int) (m : Int) :
    m ∈ valid_moves board node excl ↔ m ∈ board.neighbors node ∧ m ∉ excl := by
  simp [valid_moves, mem_sortInts, List.mem_filter]

/-- `_valid_moves` is empty exactly when every neighbor is excluded. -/
theorem valid_moves_eq_nil_iff (board : Board) (node : Int) (excl : List Int) :
    valid_moves board node excl = [] ↔ ∀ n ∈ board.neighbors node, n ∈ excl := by
  rw [List.eq_nil_iff_forall_not_mem]
  constructor
  · intro h n hn
    by_contra hx
    exact h n ((mem_valid_moves board node excl n).mpr ⟨hn, hx⟩)
  · intro h n hn
    have hm := (mem_valid_moves board node excl n).mp hn
    exact hm.2 (h n hm.1)

theorem mem_nodeKeys_fold (edges : List (Int × Int)) (acc : Finset Int) (n : Int) :
    n ∈ edges.foldl (fun acc e => insert e.2 (insert e.1 acc)) acc ↔
      n ∈ acc ∨ ∃ e ∈ edges, n = e.1 ∨ n = e.2 := by
  induction edges generalizing acc with
  | nil => simp
  | cons e t ih =>
    simp only [List.foldl_cons, ih, Finset.mem_insert, List.mem_cons]
    constructor
    · rintro ((h | h | h) | ⟨e', he', hn⟩)
      · exact Or.inr ⟨e, Or.inl rfl, Or.inr h⟩
      · exact Or.inr ⟨e, Or.inl rfl, Or.inl h⟩
      · exact Or.inl h
      · exact Or.inr ⟨e', Or.inr he', hn⟩
    · rintro (h | ⟨e', he' | he', hn⟩)
      · exact Or.inl (Or.inr (Or.inr h))
      · subst he'
        rcases hn with h | h
        · exact Or.inl (Or.inr (Or.inl h))
        · exact Or.inl (Or.inl h)
      · exact Or.inr ⟨e', he', hn⟩

theorem has_node_iff_endpoint (board : Board) (n : Int) :
    board.has_node n = true ↔ ∃ e ∈ board.edges, n = e.1 ∨ n = e.2 := by
  unfold Board.has_node Board.nodeKeys
  simp only [decide_eq_true_eq]
  rw [mem_nodeKeys_fold]
  simp

theorem neighbors_off_board (board : Board) (n : Int)
    (h : board.has_node n = false) : board.neighbors n = [] := by
  have hno : ∀ e ∈ board.edges, ¬(n = e.1 ∨ n = e.2) := by
    intro e he hn
    have h1 : board.has_node n = true := (has_node_iff_endpoint board n).mpr ⟨e, he, hn⟩
    rw [h] at h1
    exact absurd h1 (by simp)
  unfold Board.neighbors
  have hfm : board.edges.filterMap (fun e =>
      if e.1 = n then some e.2 else if e.2 = n then some e.1 else none) = [] := by
    rw [List.filterMap_eq_nil_iff]
    intro e he
    have hne := hno e he
    rw [if_neg (fun h1 => hne (Or.inl h1.symm)), if_neg (fun h2 => hne (Or.inr h2.symm))]
  rw [hfm]
  rfl

theorem map_fst_pairs {β : Type} (l : List Int) (g : Int → β) :
    (l.map (fun m => (m, g m))).map Prod.fst = l := by
  induction l with
  | nil => rfl
  | cons a t ih => simp only [List.map_cons, ih]

theorem getD_set_ne (l : List Int) (k j : Nat) (v d : Int) (h : j ≠ k) :
    (l.set k v).getD j d = l.getD j d := by
  simp [List.getD_eq_getElem?_getD, List.getElem?_set_ne (fun hh => h hh.symm)]

theorem getD_set_self (l : List Int) (k : Nat) (hk : k < l.length) (v d : Int) :
    (l.set k v).getD k d = v := by
  simp [List.getD_eq_getElem?_getD, List.getElem?_set_self hk]

theorem set_getD_self (l : List Int) (k : Nat) (hk : k < l.length) (d : Int) :
    l.set k (l.getD k d) = l := by
  induction l generalizing k with
  | nil => simp at hk
  | cons a t ih =>
    cases k with
    | zero => simp
    | succ k' =>
      simp only [List.set_cons_succ, List.getD_cons_succ]
      rw [ih k' (by simpa using hk)]

/-- Demonstration boards used by concrete instances. -/
def pathBoard2 : Board := ⟨[(1, 2)]⟩

def pathBoard3 : Board := ⟨[(1, 2), (2, 3)]⟩

/-! ## Claim theorems -/

/-- **C2**: terminal classification is decided in priority order:
capture (always a loss, regardless of round or actor), then survival
(`round_number ≥ max_rounds` on the evader's turn, a win), then trapped
(evader to move with every neighbor blocked, a loss); otherwise the
state is non-terminal. -/
theorem terminal_classification (board : Board) (max_rounds : Int) (s : SolverState) :
    ((is_terminal board s max_rounds).1 = true ↔
      (s.mrx_position ∈ s.detective_positions ∨
        (max_rounds ≤ s.round_number ∧ s.current_player = Player.mrx) ∨
        (s.current_player = Player.mrx ∧
          ∀ n ∈ board.neighbors s.mrx_position, n ∈ s.detective_positions))) ∧
    ((is_terminal board s max_rounds).2 = true ↔
      (s.mrx_position ∉ s.detective_positions ∧
        max_rounds ≤ s.round_number ∧ s.current_player = Player.mrx)) := by
  unfold is_terminal
  by_cases h1 : s.mrx_position ∈ s.detective_positions
  · simp [h1]
  · rw [if_neg h1]
    by_cases h2 : s.round_number ≥ max_rounds ∧ s.current_player = Player.mrx
    · rw [if_pos h2]
      simp only []
      constructor
      · simp [h2]
      · simp [h1, h2.1, h2.2]
    · rw [if_neg h2]
      by_cases h3 : s.current_player = Player.mrx ∧
          valid_moves board s.mrx_position s.detective_positions = []
      · rw [if_pos h3]
        have h3' := (valid_moves_eq_nil_iff board s.mrx_position s.detective_positions).mp h3.2
        constructor
        · constructor
          · intro _
            exact Or.inr (Or.inr ⟨h3.1, h3'⟩)
          · intro _
            rfl
        · simp [h2]
      · rw [if_neg h3]
        have h3' : ¬(s.current_player = Player.mrx ∧
            ∀ n ∈ board.neighbors s.mrx_position, n ∈ s.detective_positions) := by
          intro hc
          exact h3 ⟨hc.1,
            (valid_moves_eq_nil_iff board s.mrx_position s.detective_positions).mpr hc.2⟩
        constructor
        · simp [h1, h2, h3']
        · simp [h2]

/-- **C3**: on pursuer `k`'s turn the legal destinations are the
neighbors of `k`'s node minus the other pursuers' positions only; a
stuck pursuer yields exactly one successor staying in place; every
successor keeps the round number, the evader's position and all other
pursuer positions, and the turn passes to pursuer `k+1` or to the
evader. -/
theorem detective_transition (board : Board) (s : SolverState) (k : Nat)
    (hcp : s.current_player = Player.detective k)
    (hk : k < s.detective_positions.length) :
    ((next_states board s).map Prod.fst =
      (if valid_moves board (s.detective_positions.getD k 0)
          (s.detective_positions.eraseIdx k) = []
       then [s.detective_positions.getD k 0]
       else valid_moves board (s.detective_positions.getD k 0)
          (s.detective_positions.eraseIdx k))) ∧
    (∀ m, m ∈ valid_moves board (s.detective_positions.getD k 0)
        (s.detective_positions.eraseIdx k) ↔
      (m ∈ board.neighbors (s.detective_positions.getD k 0) ∧
        m ∉ s.detective_positions.eraseIdx k)) ∧
    (valid_moves board (s.detective_positions.getD k 0)
        (s.detective_positions.eraseIdx k) = [] →
      next_states board s =
        [(s.detective_positions.getD k 0,
          { round_number := s.round_number
            current_player := if k + 1 < s.detective_positions.length
              then Player.detective (k + 1) else Player.mrx
            mrx_position := s.mrx_position
            detective_positions := s.detective_positions })]) ∧
    (∀ p ∈ next_states board s,
      p.2.round_number = s.round_number ∧
      p.2.mrx_position = s.mrx_position ∧
      p.2.detective_positions.length = s.detective_positions.length ∧
      (∀ j, j ≠ k → p.2.detective_positions.getD j 0 = s.detective_positions.getD j 0) ∧
      p.2.current_player = (if k + 1 < s.detective_positions.length
        then Player.detective (k + 1) else Player.mrx) ∧
      p.2.detective_positions.getD k 0 = p.1) := by
  have hns : next_states board s =
      (if valid_moves board (s.detective_positions.getD k 0)
          (s.detective_positions.eraseIdx k) = []
       then [s.detective_positions.getD k 0]
       else valid_moves board (s.detective_positions.getD k 0)
          (s.detective_positions.eraseIdx k)).map (fun move =>
        (move,
          { round_number := s.round_number
            current_player := if k + 1 < s.detective_positions.length
              then Player.detective (k + 1) else Player.mrx
            mrx_position := s.mrx_position
            detective_positions := s.detective_positions.set k move })) := by
    simp only [next_states, hcp, if_pos hk]
  refine ⟨?_, fun m => mem_valid_moves board _ _ m, ?_, ?_⟩
  · rw [hns, map_fst_pairs]
  · intro hnil
    rw [hns, if_pos hnil]
    simp only [List.map_cons, List.map_nil]
    rw [set_getD_self s.detective_positions k hk 0]
  · intro p hp
    rw [hns] at hp
    obtain ⟨move, -, rfl⟩ := List.mem_map.mp hp
    refine ⟨rfl, rfl, by simp, ?_, rfl, getD_set_self s.detective_positions k hk move 0⟩
    intro j hj
    exact getD_set_ne s.detective_positions k j move 0 hj

/-- **C7**: along every transition the round number never decreases,
the evader's move advances it by exactly one per actor cycle, every
transition out of a non-terminal state strictly decreases the
termination measure (so the well-founded recursion defining the solver
is total), and once `round_number ≥ max_rounds` an evader-to-move
state is terminal. -/
theorem solver_termination (board : Board) (max_rounds : Int) :
    (∀ (s : SolverState), ∀ p ∈ next_states board s,
      s.round_number ≤ p.2.round_number) ∧
    (∀ (s : SolverState), s.current_player = Player.mrx →
      ∀ p ∈ next_states board s, p.2.round_number = s.round_number + 1) ∧
    (∀ (s : SolverState), (is_terminal board s max_rounds).1 = false →
      ∀ p ∈ next_states board s, meas max_rounds p.2 < meas max_rounds s) ∧
    (∀ (s : SolverState), s.current_player = Player.mrx →
      max_rounds ≤ s.round_number → (is_terminal board s max_rounds).1 = true) := by
  refine ⟨?_, ?_, fun s h => meas_decreasing board max_rounds s h, ?_⟩
  · intro s p hp
    cases hcp : s.current_player with
    | mrx =>
      simp only [next_states, hcp, List.mem_map] at hp
      obtain ⟨move, -, rfl⟩ := hp
      simp only []
      omega
    | detective k =>
      simp only [next_states, hcp] at hp
      by_cases hkl : k < s.detective_positions.length
      · rw [if_pos hkl] at hp
        obtain ⟨move, -, rfl⟩ := List.mem_map.mp hp
        exact le_refl _
      · rw [if_neg hkl] at hp
        simp at hp
  · intro s hcp p hp
    simp only [next_states, hcp, List.mem_map] at hp
    obtain ⟨move, -, rfl⟩ := hp
    rfl
  · intro s hcp hge
    unfold is_terminal
    by_cases h1 : s.mrx_position ∈ s.detective_positions
    · rw [if_pos h1]
    · rw [if_neg h1, if_pos ⟨hge, hcp⟩]

/-- **C9**: a non-terminal evader-to-move state always has successors,
so the solver's `min`-over-moves fallback never sees an empty
collection: starting from a sound memo the search never returns the
error value, and neither does the top-level solve. -/
theorem no_empty_min_fallback (board : Board) (max_rounds : Int) :
    (∀ s : SolverState, s.current_player = Player.mrx →
      (is_terminal board s max_rounds).1 = false → next_states board s ≠ []) ∧
    (∀ (s : SolverState) (memo : Memo) (policy : PolicyMap),
      MemoOK board max_rounds memo →
      can_mrx_force_win board max_rounds s memo policy ≠ none) ∧
    (∀ initial_state : GameState, solve_mrx_forced_escape board initial_state ≠ none) := by
  refine ⟨fun s hcp hterm => next_states_mrx_ne_nil board max_rounds s hterm hcp, ?_, ?_⟩
  · intro s memo policy hm
    obtain ⟨m2, p2, heq, -, -⟩ :=
      can_mrx_force_win_spec board max_rounds (meas max_rounds s) s le_rfl memo policy hm
    rw [heq]
    simp
  · intro initial_state
    obtain ⟨m2, p2, heq, -, -⟩ :=
      can_mrx_force_win_spec board initial_state.max_rounds
        (meas initial_state.max_rounds (SolverState.from_game_state initial_state))
        (SolverState.from_game_state initial_state) le_rfl [] []
        (fun q hq => absurd hq (List.not_mem_nil q))
    simp only [solve_mrx_forced_escape, heq]
    simp

/-- **C10**: a board's node set is exactly the edge endpoints, and
neighbor / legal-move queries for off-board nodes return empty instead
of failing. -/
theorem board_off_graph_spec (board : Board) :
    (∀ n : Int, board.has_node n = true ↔ ∃ e ∈ board.edges, n = e.1 ∨ n = e.2) ∧
    (∀ n : Int, board.has_node n = false → board.neighbors n = []) ∧
    (∀ n : Int, board.has_node n = false →
      ∀ excluded : List Int, valid_moves board n excluded = []) := by
  refine ⟨has_node_iff_endpoint board, neighbors_off_board board, ?_⟩
  intro n h excl
  unfold valid_moves
  rw [neighbors_off_board board n h]
  rfl

/-! ## Witness instances -/

theorem detective_transition_witness :
    (next_states pathBoard3 ⟨1, Player.detective 0, 3, [1]⟩).map Prod.fst =
      valid_moves pathBoard3 1 [] := by
  have h := (detective_transition pathBoard3 ⟨1, Player.detective 0, 3, [1]⟩ 0 rfl
    (by decide)).1
  rw [h]
  decide

theorem solver_termination_witness :
    (0 : Int) ≤ (1 : Int) ∧
    ((⟨1, Player.mrx, 2, []⟩ : SolverState).round_number = (0 : Int) + 1) ∧
    meas 1 ⟨1, Player.mrx, 2, []⟩ < meas 1 ⟨0, Player.mrx, 1, []⟩ ∧
    (is_terminal pathBoard2 ⟨1, Player.mrx, 2, []⟩ 1).1 = true := by
  have h := solver_termination pathBoard2 1
  exact ⟨h.1 ⟨0, Player.mrx, 1, []⟩ (2, ⟨1, Player.mrx, 2, []⟩) (by decide),
    h.2.1 ⟨0, Player.mrx, 1, []⟩ rfl (2, ⟨1, Player.mrx, 2, []⟩) (by decide),
    h.2.2.1 ⟨0, Player.mrx, 1, []⟩ (by decide) (2, ⟨1, Player.mrx, 2, []⟩) (by decide),
    h.2.2.2 ⟨1, Player.mrx, 2, []⟩ rfl (by decide)⟩

theorem no_empty_min_fallback_witness :
    next_states pathBoard2 ⟨0, Player.mrx, 1, []⟩ ≠ [] ∧
    can_mrx_force_win pathBoard2 1 ⟨0, Player.mrx, 1, []⟩ [] [] ≠ none ∧
    solve_mrx_forced_escape pathBoard2
      { mrx_position := 1, detective_positions := [], max_rounds := 1 } ≠ none := by
  have h := no_empty_min_fallback pathBoard2 1
  exact ⟨h.1 ⟨0, Player.mrx, 1, []⟩ rfl (by decide),
    h.2.1 ⟨0, Player.mrx, 1, []⟩ [] [] (fun q hq => absurd hq (List.not_mem_nil q)),
    h.2.2 _⟩

theorem board_off_graph_spec_witness :
    pathBoard2.has_node 5 = false ∧ pathBoard2.neighbors 5 = [] ∧
    valid_moves pathBoard2 5 [1] = [] := by
  have h := board_off_graph_spec pathBoard2
  exact ⟨by decide, h.2.1 5 (by decide), h.2.2 5 (by decide) [1]⟩

/-- **C5**: both policy strategies look up the policy under the
canonical key with `round_number - 1` on evader turns (pursuer turns
unadjusted); a stored move that is currently legal is returned;
otherwise strict mode reports the key and the valid-move set while
non-strict mode returns the numerically smallest valid move; and the
serialized variant behaves identically to the dict-backed variant
(up to key encoding) whenever its lookup on the encoded key agrees. -/
theorem policy_strategy_spec (policy : PolicyMap) (sp : List (String × Int))
    (strict : Bool) (state : GameState) (valid_moves : List Int) :
    ((policy_lookup_state state).round_number =
      (if state.current_player = Player.mrx then state.round_number - 1
       else state.round_number) ∧
     (policy_lookup_state state).current_player = state.current_player ∧
     (policy_lookup_state state).mrx_position = state.mrx_position ∧
     (policy_lookup_state state).detective_positions = state.detective_positions) ∧
    (∀ m, alookup policy (policy_lookup_state state) = some m → m ∈ valid_moves →
      PolicyStrategy.choose_move policy strict state valid_moves = ChooseOutcome.move m) ∧
    ((∀ m, alookup policy (policy_lookup_state state) = some m → m ∉ valid_moves) →
      (strict = true →
        PolicyStrategy.choose_move policy strict state valid_moves =
          ChooseOutcome.lookupMiss (policy_lookup_state state) valid_moves) ∧
      (strict = false → ∀ mm, valid_moves.min? = some mm →
        PolicyStrategy.choose_move policy strict state valid_moves =
          ChooseOutcome.move mm ∧ mm ∈ valid_moves ∧ ∀ b ∈ valid_moves, mm ≤ b)) ∧
    (alookup sp (SerializedPolicyStrategy.state_to_key state) =
        alookup policy (policy_lookup_state state) →
      SerializedPolicyStrategy.choose_move sp strict state valid_moves =
        (PolicyStrategy.choose_move policy strict state valid_moves).mapKey
          (fun _ => SerializedPolicyStrategy.state_to_key state)) := by
  refine ⟨⟨rfl, rfl, rfl, rfl⟩, ?_, ?_, ?_⟩
  · intro m hsome hmem
    simp only [PolicyStrategy.choose_move, hsome, if_pos hmem]
  · intro hmiss
    constructor
    · intro hstrict
      subst hstrict
      cases hsome : alookup policy (policy_lookup_state state) with
      | none => simp [PolicyStrategy.choose_move, hsome, chooseFallback]
      | some m =>
        have hnm := hmiss m hsome
        simp [PolicyStrategy.choose_move, hsome, if_neg hnm, chooseFallback]
    · intro hstrict mm hmin
      subst hstrict
      have hchar := int_min?_eq_some_iff.mp hmin
      refine ⟨?_, hchar.1, hchar.2⟩
      cases hsome : alookup policy (policy_lookup_state state) with
      | none => simp [PolicyStrategy.choose_move, hsome, chooseFallback, hmin]
      | some m =>
        have hnm := hmiss m hsome
        simp [PolicyStrategy.choose_move, hsome, if_neg hnm, chooseFallback, hmin]
  · intro hagree
    simp only [SerializedPolicyStrategy.choose_move, PolicyStrategy.choose_move, hagree]
    cases hsome : alookup policy (policy_lookup_state state) with
    | none =>
      simp only [chooseFallback]
      cases strict with
      | false => cases hmin : valid_moves.min? <;> simp [ChooseOutcome.mapKey, hmin]
      | true => simp [ChooseOutcome.mapKey]
    | some m =>
      by_cases hmem : m ∈ valid_moves
      · simp [if_pos hmem, ChooseOutcome.mapKey]
      · simp only [if_neg hmem, chooseFallback]
        cases strict with
        | false => cases hmin : valid_moves.min? <;> simp [ChooseOutcome.mapKey, hmin]
        | true => simp [ChooseOutcome.mapKey]

theorem policy_strategy_spec_witness :
    PolicyStrategy.choose_move [(⟨0, Player.mrx, 1, []⟩, 2)] false
        { mrx_position := 1, detective_positions := [], round_number := 1 } [2] =
      ChooseOutcome.move 2 := by
  have h := policy_strategy_spec [(⟨0, Player.mrx, 1, []⟩, 2)] [] false
    { mrx_position := 1, detective_positions := [], round_number := 1 } [2]
  exact h.2.1 2 (by decide) (by decide)

/-- **C6 (amended)**: `main`'s pre-search validation accepts exactly
the starts that are on-board and pairwise distinct; it never inspects
`max_rounds` (the outcome is identical for any two budgets, so a
negative or zero budget is *not* rejected). -/
theorem start_validation_spec (board : Board) (mrx_start : Int)
    (detective_starts : List Int) (max_rounds max_rounds' : Int) :
    (mainValidate board mrx_start detective_starts max_rounds = Except.ok () ↔
      ((∀ p ∈ mrx_start :: detective_starts, board.has_node p = true) ∧
        (mrx_start :: detective_starts).Nodup)) ∧
    mainValidate board mrx_start detective_starts max_rounds =
      mainValidate board mrx_start detective_starts max_rounds' := by
  refine ⟨?_, rfl⟩
  have hbody : mainValidate board mrx_start detective_starts max_rounds =
      (match (mrx_start :: detective_starts).find? (fun p => !board.has_node p) with
       | some p => Except.error (StartError.offBoard p)
       | none =>
         if (mrx_start :: detective_starts).dedup.length ≠
             (mrx_start :: detective_starts).length then Except.error StartError.duplicate
         else Except.ok ()) := rfl
  rw [hbody]
  cases hf : (mrx_start :: detective_starts).find? (fun p => !board.has_node p) with
  | some p =>
    constructor
    · intro h
      exact absurd h (by simp)
    · intro hcl
      have hp := List.find?_some hf
      have hmem := List.mem_of_find?_eq_some hf
      rw [hcl.1 p hmem] at hp
      exact absurd hp (by simp)
  | none =>
    rw [List.find?_eq_none] at hf
    show (if (mrx_start :: detective_starts).dedup.length ≠
        (mrx_start :: detective_starts).length then Except.error StartError.duplicate
      else Except.ok ()) = Except.ok () ↔ _
    by_cases hd : (mrx_start :: detective_starts).dedup.length ≠
        (mrx_start :: detective_starts).length
    · rw [if_pos hd]
      constructor
      · intro h
        exact absurd h (by simp)
      · intro hcl
        rw [List.dedup_eq_self.mpr hcl.2] at hd
        exact absurd rfl hd
    · rw [if_neg hd]
      push_neg at hd
      constructor
      · intro _
        refine ⟨fun p hp => by simpa using hf p hp, ?_⟩
        have hsub : (mrx_start :: detective_starts).dedup.Sublist
            (mrx_start :: detective_starts) := List.dedup_sublist _
        have heql := hsub.eq_of_length hd
        rw [← heql]
        exact List.nodup_dedup _
      · intro _
        rfl

/-- **C6 counterexample**: a zero `max_rounds` passes `main`'s
validation, and the solver then runs on it (immediate Survived
verdict) — the claimed rejection of non-positive budgets does not
happen. -/
theorem start_validation_counterexample :
    mainValidate pathBoard2 1 [2] 0 = Except.ok () ∧
    solve_mrx_forced_escape pathBoard2
      { mrx_position := 1, detective_positions := [2], max_rounds := 0 } =
      some ⟨true, [], 1⟩ := by
  constructor
  · rfl
  · simp [solve_mrx_forced_escape, can_mrx_force_win, evalChildren, is_terminal, next_states,
      valid_moves, Board.neighbors, sortInts, insertSorted, alookup,
      SolverState.from_game_state]

/-- **C1**: at every non-terminal evader-to-move state the solver
actually evaluates (not memo-cached): the verdict is `true` iff some
successor's verdict is `true`; the recorded policy move for the state
is the numerically smallest winning move when one exists, and the
numerically smallest move overall otherwise; and every policy entry
recorded by the call is keyed by an evader-to-move state (pursuer
states never receive one). -/
theorem evader_branch_spec (board : Board) (max_rounds : Int) (s : SolverState)
    (memo : Memo) (policy : PolicyMap)
    (hm : MemoOK board max_rounds memo)
    (hlk : alookup memo s = none)
    (hterm : (is_terminal board s max_rounds).1 = false)
    (hcp : s.current_player = Player.mrx) :
    ∃ verdict memo2 policy2 chosen,
      can_mrx_force_win board max_rounds s memo policy =
        some (verdict, memo2, policy2) ∧
      alookup policy2 s = some chosen ∧
      (verdict = true ↔ ∃ p ∈ next_states board s, canWin board max_rounds p.2 = true) ∧
      (∀ q ∈ policy2, q ∈ policy ∨ q.1.current_player = Player.mrx) ∧
      (if ((next_states board s).filter (fun p => canWin board max_rounds p.2)).map
          Prod.fst = [] then
        verdict = false ∧
          chosen ∈ (next_states board s).map Prod.fst ∧
          ∀ b ∈ (next_states board s).map Prod.fst, chosen ≤ b
      else
        verdict = true ∧
          chosen ∈ ((next_states board s).filter
            (fun p => canWin board max_rounds p.2)).map Prod.fst ∧
          ∀ b ∈ ((next_states board s).filter
            (fun p => canWin board max_rounds p.2)).map Prod.fst, chosen ≤ b) := by
  have hchild : ∀ p ∈ next_states board s, ∀ memo' policy',
      MemoOK board max_rounds memo' → CallOK board max_rounds p.2 memo' policy' :=
    fun p _ memo' policy' hm' =>
      can_mrx_force_win_spec board max_rounds (meas max_rounds p.2) p.2 le_rfl memo' policy' hm'
  obtain ⟨memo2, policy2, chosen, heq, hm2, hpol2, hif⟩ :=
    can_mrx_force_win_mrx board max_rounds s memo policy hm hlk hterm hcp hchild
  refine ⟨canWin board max_rounds s, (s, canWin board max_rounds s) :: memo2,
    (s, chosen) :: policy2, chosen, heq, ?_, ?_, ?_, ?_⟩
  · simp [alookup]
  · rw [canWin_mrx_eq board max_rounds s hterm hcp]
    simp [List.any_eq_true]
  · intro q hq
    rcases List.mem_cons.mp hq with rfl | h
    · exact Or.inr hcp
    · exact hpol2 q h
  · by_cases hwnil : ((next_states board s).filter
        (fun p => canWin board max_rounds p.2)).map Prod.fst = []
    · rw [if_pos hwnil]
      rw [if_pos hwnil] at hif
      have hc := int_min?_eq_some_iff.mp hif.2
      exact ⟨hif.1, hc.1, hc.2⟩
    · rw [if_neg hwnil]
      rw [if_neg hwnil] at hif
      have hc := int_min?_eq_some_iff.mp hif.2
      exact ⟨hif.1, hc.1, hc.2⟩

theorem evader_branch_spec_witness :
    ∃ verdict memo2 policy2 chosen,
      can_mrx_force_win pathBoard2 1 ⟨0, Player.mrx, 1, []⟩ [] [] =
        some (verdict, memo2, policy2) ∧
      alookup policy2 ⟨0, Player.mrx, 1, []⟩ = some chosen := by
  obtain ⟨v, m2, p2, c, heq, hpol, -, -, -⟩ :=
    evader_branch_spec pathBoard2 1 ⟨0, Player.mrx, 1, []⟩ [] []
      (fun q hq => absurd hq (List.not_mem_nil q)) rfl (by decide) rfl
  exact ⟨v, m2, p2, c, heq, hpol⟩

/-- **C8**: on the board `{1,2}` with edge `(1,2)`, evader at 1, no
pursuers and `max_rounds = 1`: forced escape holds, the policy maps
the start state to node 2, and the unique successor has round 1,
evader to move, and is terminal with an evader win (Survived). -/
theorem scenario_two_nodes :
    solve_mrx_forced_escape pathBoard2
        { mrx_position := 1, detective_positions := [], max_rounds := 1 } =
      some ⟨true, [(⟨0, Player.mrx, 1, []⟩, 2)], 2⟩ ∧
    next_states pathBoard2 ⟨0, Player.mrx, 1, []⟩ = [(2, ⟨1, Player.mrx, 2, []⟩)] ∧
    is_terminal pathBoard2 ⟨1, Player.mrx, 2, []⟩ 1 = (true, true) ∧
    (1 : Int) ≤ (⟨1, Player.mrx, 2, []⟩ : SolverState).round_number ∧
    (⟨1, Player.mrx, 2, []⟩ : SolverState).current_player = Player.mrx := by
  refine ⟨?_, by decide, by decide, by decide, rfl⟩
  simp [solve_mrx_forced_escape, can_mrx_force_win, evalChildren, is_terminal, next_states,
    valid_moves, Board.neighbors, sortInts, insertSorted, alookup, SolverState.from_game_state]

/-- **C4 counterexample**: on the path `1—2—3` with the evader at 2
and one pursuer at 1, the verdict is `true` at `max_rounds = 1` but
`false` at `max_rounds = 2 > 1`: increasing the round budget flips a
`true` verdict to `false`, contradicting the claim. -/
theorem budget_monotonicity_counterexample :
    solve_mrx_forced_escape pathBoard3
        { mrx_position := 2, detective_positions := [1], max_rounds := 1 } =
      some ⟨true, [(⟨0, Player.mrx, 2, [1]⟩, 3)], 3⟩ ∧
    solve_mrx_forced_escape pathBoard3
        { mrx_position := 2, detective_positions := [1], max_rounds := 2 } =
      some ⟨false, [(⟨0, Player.mrx, 2, [1]⟩, 3)], 3⟩ ∧
    (1 : Int) < 2 := by
  refine ⟨?_, ?_, by decide⟩ <;>
    simp [solve_mrx_forced_escape, can_mrx_force_win, evalChildren, is_terminal, next_states,
      valid_moves, Board.neighbors, sortInts, insertSorted, alookup,
      SolverState.from_game_state]

/-- **C4 (amended)**: a `true` verdict survives *decreasing* the round
budget: if `solve` reports a forced escape with budget `max_rounds`,
it reports one for every budget `M' ≤ max_rounds` (equivalently,
increasing the budget never flips `false` to `true`). -/
theorem forced_escape_budget_mono (board : Board) (gs : GameState) (M' : Int)
    (hM : M' ≤ gs.max_rounds) (res : ExhaustiveResult)
    (h : solve_mrx_forced_escape board gs = some res)
    (htrue : res.forced_escape = true) :
    ∃ res', solve_mrx_forced_escape board { gs with max_rounds := M' } = some res' ∧
      res'.forced_escape = true := by
  obtain ⟨m2, p2, heq, -, -⟩ :=
    can_mrx_force_win_spec board gs.max_rounds
      (meas gs.max_rounds (SolverState.from_game_state gs))
      (SolverState.from_game_state gs) le_rfl [] []
      (fun q hq => absurd hq (List.not_mem_nil q))
  simp only [solve_mrx_forced_escape, heq] at h
  have hres : res = ⟨canWin board gs.max_rounds (SolverState.from_game_state gs),
      p2, m2.length⟩ := by
    cases h
    rfl
  have hcw : canWin board gs.max_rounds (SolverState.from_game_state gs) = true := by
    rw [hres] at htrue
    exact htrue
  have hcw' : canWin board M' (SolverState.from_game_state gs) = true :=
    canWin_mono board hM _ hcw
  obtain ⟨m3, p3, heq', -, -⟩ :=
    can_mrx_force_win_spec board M'
      (meas M' (SolverState.from_game_state gs))
      (SolverState.from_game_state gs) le_rfl [] []
      (fun q hq => absurd hq (List.not_mem_nil q))
  refine ⟨⟨canWin board M' (SolverState.from_game_state gs), p3, m3.length⟩, ?_, hcw'⟩
  have hsame : SolverState.from_game_state { gs with max_rounds := M' } =
      SolverState.from_game_state gs := rfl
  simp only [solve_mrx_forced_escape, hsame]
  rw [heq']

theorem forced_escape_budget_mono_witness :
    ∃ res', solve_mrx_forced_escape pathBoard2
        { mrx_position := 1, detective_positions := [], max_rounds := 0 } = some res' ∧
      res'.forced_escape = true := by
  refine forced_escape_budget_mono pathBoard2
    { mrx_position := 1, detective_positions := [], max_rounds := 1 } 0 (by decide)
    ⟨true, [(⟨0, Player.mrx, 1, []⟩, 2)], 2⟩ ?_ rfl
  simp [solve_mrx_forced_escape, can_mrx_force_win, evalChildren, is_terminal, next_states,
    valid_moves, Board.neighbors, sortInts, insertSorted, alookup, SolverState.from_game_state]

end ScotlandYard
